import Mathlib

/-!
Verification of the word-of-mouth / advertisement adoption model
(`market_network.ipynb`): a market of consumer agents on a static contact
graph.  Each tick, every agent runs a decision rule (`ConsumerAgent.step`)
that may set `become_adopter` flags, and a commit phase
(`ConsumerAgent.update`, swept by `MarketModel.update`) that promotes
flagged agents to adopters, clears the flags, counts adopters and records
the running total.

Randomness is embedded as an explicit tape of rational draws (`Rng`):
the notebook draws every stochastic decision from the single shared
generator `self.model.random`, which we model as one tape threaded through
the sweep.  Neighbor selection (`AgentList.random`) is modelled as one
draw mapped to a list index by `uniformIndex`.
-/

/-- A consumer agent, mirroring the fields set in `ConsumerAgent.setup`
plus the neighbor list cached by `get_neighbors`.  Neighbors are stored as
indices into the model's agent list. -/
structure ConsumerAgent where
  ad_effectiveness : ℚ
  adoption_fraction : ℚ
  contact_rate : ℕ
  become_adopter : Bool
  is_adopter : Bool
  neighbors : List ℕ
deriving DecidableEq, Repr

/-- A deterministic stream of rational draws with a current position:
the embedding of the run's seeded random generator. -/
structure Rng where
  tape : ℕ → ℚ
  pos : ℕ

/-- Draw the next value from the stream (`random.random()`). -/
def Rng.draw (g : Rng) : ℚ × Rng :=
  (g.tape g.pos, { g with pos := g.pos + 1 })

/-- Source `ConsumerAgent.setup`: default parameters, not an adopter,
no pending flag; the neighbor list is the one later cached by
`get_neighbors` from the static graph. -/
def ConsumerAgent.setup (nbrs : List ℕ) : ConsumerAgent :=
  { ad_effectiveness := mkRat 1 100
    adoption_fraction := mkRat 1 100
    contact_rate := 1
    become_adopter := false
    is_adopter := false
    neighbors := nbrs }

/-- Source `ConsumerAgent.adopt`: draw one sample from the model's shared
generator and set `become_adopter` when it falls below `probability`. -/
def ConsumerAgent.adopt (a : ConsumerAgent) (probability : ℚ) (g : Rng) :
    ConsumerAgent × Rng :=
  let p := g.draw
  (if p.1 < probability then { a with become_adopter := true } else a, p.2)

/-- Map one uniform draw `r` (intended range `[0,1)`) to an index below
`len`: the embedding of choosing a list element uniformly at random.
Clamped so that any rational draw yields a valid index when `len > 0`. -/
def uniformIndex (r : ℚ) (len : ℕ) : ℕ :=
  min (Int.toNat ⌊r * len⌋) (len - 1)

/-- Modelled from the spec: the library call `self.neighbors.random()` is
external code; per §4.3 the selection is uniform over the neighbor list and
an empty neighbor list yields a no-op (`none`) instead of an error. -/
def randomNeighbor (nbrs : List ℕ) (g : Rng) : Option ℕ × Rng :=
  match nbrs with
  | [] => (none, g)
  | _ :: _ =>
    let p := g.draw
    (nbrs[uniformIndex p.1 nbrs.length]?, p.2)

/-- One iteration of the `for _ in range(self.contact_rate)` loop in
`ConsumerAgent.step`: pick a random partner among `self`'s neighbors and,
when the partner is not an adopter, let it run `adopt` with its own
`adoption_fraction`. -/
def contactAttempt (agents : List ConsumerAgent) (self : ConsumerAgent)
    (g : Rng) : List ConsumerAgent × Rng :=
  let pick := randomNeighbor self.neighbors g
  match pick.1 with
  | none => (agents, pick.2)
  | some j =>
    match agents[j]? with
    | none => (agents, pick.2)
    | some partner =>
      if partner.is_adopter then (agents, pick.2)
      else
        let q := partner.adopt partner.adoption_fraction pick.2
        (agents.set j q.1, q.2)

/-- The whole contact loop of `ConsumerAgent.step`, run `n` times. -/
def contactLoop : List ConsumerAgent → ConsumerAgent → ℕ → Rng →
    List ConsumerAgent × Rng
  | agents, _, 0, g => (agents, g)
  | agents, self, n + 1, g =>
    let q := contactAttempt agents self g
    contactLoop q.1 self n q.2

/-- Source `ConsumerAgent.step` for the agent at index `i`: an adopter
makes `contact_rate` peer contacts; a non-adopter runs `adopt` with its
`ad_effectiveness` (the broadcast advertisement). -/
def ConsumerAgent.step (agents : List ConsumerAgent) (i : ℕ) (g : Rng) :
    List ConsumerAgent × Rng :=
  match agents[i]? with
  | none => (agents, g)
  | some a =>
    if a.is_adopter then contactLoop agents a a.contact_rate g
    else
      let q := a.adopt a.ad_effectiveness g
      (agents.set i q.1, q.2)

/-- Phase 1 of a tick: run `ConsumerAgent.step` for the agents listed in
`order`, threading the single shared random stream (`self.agents.step()`
visits the population in list order, i.e. `order = List.range n`). -/
def sweep (agents : List ConsumerAgent) (order : List ℕ) (g : Rng) :
    List ConsumerAgent × Rng :=
  order.foldl (fun p i => ConsumerAgent.step p.1 i p.2) (agents, g)

/-- Phase 1 variant in which every agent draws from its own dedicated
stream `tapes i` instead of the shared one: the randomness each agent sees
is then a function of the agent, not of the visiting order. -/
def sweepIndexed (agents : List ConsumerAgent) (order : List ℕ)
    (tapes : ℕ → Rng) : List ConsumerAgent :=
  order.foldl (fun ags i => (ConsumerAgent.step ags i (tapes i)).1) agents

/-- Source `ConsumerAgent.update` (commit): a flagged agent becomes an
adopter and its flag is cleared. -/
def ConsumerAgent.update (a : ConsumerAgent) : ConsumerAgent :=
  if a.become_adopter then
    { a with is_adopter := true, become_adopter := false }
  else a

/-- The model: agent population, the global adopter counter mutated by the
agents' `update`, and the recorded `n_adopters` time series. -/
structure MarketModel where
  agents : List ConsumerAgent
  n_adopters : ℕ
  log : List ℕ
deriving DecidableEq, Repr

/-- Source `MarketModel.setup`, parametrized by the adjacency lists of the
externally built contact graph: counter at zero, `n_agents` fresh agents
with their neighbor lists wired. -/
def MarketModel.setup (nbrs : List (List ℕ)) : MarketModel :=
  { agents := nbrs.map ConsumerAgent.setup, n_adopters := 0, log := [] }

/-- Source `MarketModel.step`: `self.agents.step()` sweeps the whole
population in list order. -/
def MarketModel.step (m : MarketModel) (g : Rng) : MarketModel × Rng :=
  let p := sweep m.agents (List.range m.agents.length) g
  ({ m with agents := p.1 }, p.2)

/-- Source `MarketModel.update`: every agent commits (each flagged agent
increments the model counter once), then `record('n_adopters')` appends
the counter to the time series. -/
def MarketModel.update (m : MarketModel) : MarketModel :=
  let n := m.n_adopters + m.agents.countP (fun a => a.become_adopter)
  { agents := m.agents.map ConsumerAgent.update
    n_adopters := n
    log := m.log ++ [n] }

/-- One full tick as scheduled by the framework: phase 1 (`step`) then
phase 2 (`update`, which also records). -/
def MarketModel.tick (m : MarketModel) (g : Rng) : MarketModel × Rng :=
  let p := m.step g
  (p.1.update, p.2)

/-- Iterate `n` ticks. -/
def runAux : ℕ → MarketModel × Rng → MarketModel × Rng
  | 0, p => p
  | n + 1, p => runAux n (p.1.tick p.2)

/-- A full run, following the scheduling documented in the notebook:
after `setup`, `update` runs once (recording at `t = 0`), then each of the
`steps` ticks runs `step` followed by `update`. -/
def MarketModel.run (m : MarketModel) (steps : ℕ) (g : Rng) :
    MarketModel × Rng :=
  runAux steps (m.update, g)

/-- The model state after the initial record and `t` completed ticks. -/
def stateAt (m : MarketModel) (g : Rng) (t : ℕ) : MarketModel :=
  (runAux t (m.update, g)).1

/-- Whether the agent at index `j` is an adopter. -/
def adopterAt (m : MarketModel) (j : ℕ) : Bool :=
  match m.agents[j]? with
  | some a => a.is_adopter
  | none => false

/-- Idempotent flag write, the spec's `set pending_adopt = true`. -/
def setPending (agents : List ConsumerAgent) (j : ℕ) : List ConsumerAgent :=
  match agents[j]? with
  | some a => agents.set j { a with become_adopter := true }
  | none => agents

/-- Follows the spec's words (§4.3, adopter branch): `contact_rate`
independent peer-contact attempts; an agent with zero neighbors performs
no peer contacts; each attempt selects one neighbor uniformly at random
with replacement and, if that neighbor is not yet an adopter, draws one
sample for the neighbor and sets its pending flag exactly when the sample
is below the neighbor's `adoption_fraction`. -/
def specContacts : List ConsumerAgent → List ℕ → ℕ → Rng →
    List ConsumerAgent × Rng
  | ags, _, 0, g => (ags, g)
  | ags, [], _ + 1, g => (ags, g)
  | ags, b :: bs, n + 1, g =>
    let p := g.draw
    match (b :: bs)[uniformIndex p.1 (b :: bs).length]? with
    | none => specContacts ags (b :: bs) n p.2
    | some j =>
      match ags[j]? with
      | none => specContacts ags (b :: bs) n p.2
      | some partner =>
        if partner.is_adopter then specContacts ags (b :: bs) n p.2
        else
          let q := p.2.draw
          specContacts
            (if q.1 < partner.adoption_fraction then setPending ags j else ags)
            (b :: bs) n q.2

/-- Follows the spec's words (§4.3): the per-agent decision rule — an
adopter performs the peer-contact attempts of `specContacts`; a non-adopter
draws one sample and sets its own pending flag exactly when the sample is
below its `ad_effectiveness`. -/
def specDecide (ags : List ConsumerAgent) (i : ℕ) (g : Rng) :
    List ConsumerAgent × Rng :=
  match ags[i]? with
  | none => (ags, g)
  | some a =>
    if a.is_adopter then specContacts ags a.neighbors a.contact_rate g
    else
      let p := g.draw
      (if p.1 < a.ad_effectiveness then setPending ags i else ags, p.2)

/-- Modelled from the spec: the run-configuration record of §6 (the
notebook itself only builds a parameter dict consumed by external library
code). `seed` is optional here so that omitting it is representable. -/
structure RunConfig where
  seed : Option ℤ
  steps : ℕ
  n_agents : ℕ
  n_neighbors : ℕ
  network_randomness : ℚ

/-- Modelled from the spec: the `ConfigurationError` taxonomy of §7. -/
inductive ConfigurationError where
  | missingSeed
  | oddNeighbors
  | neighborsTooLarge
  | populationTooSmall
  | randomnessOutOfRange
deriving DecidableEq, Repr

/-- Ring-lattice adjacency of the Watts–Strogatz construction before
rewiring: vertex `i` is joined to its `k/2` nearest neighbors on each
side. -/
def ringNeighbors (n k i : ℕ) : List ℕ :=
  ((List.range (k / 2)).map (fun d => (i + d + 1) % n)) ++
    ((List.range (k / 2)).map (fun d => (i + n - (d + 1)) % n))

/-- Modelled from the spec: the `initialize(config)` operation of §4.5 and the validation
of §§4.1–4.2, which live in external library code, not in the notebook.
Validation runs before any simulation state is created; on success the
model is set up on the contact graph (rewiring, which no claim concerns,
is not modelled: the ring lattice is used). -/
def initRun (c : RunConfig) : Except ConfigurationError MarketModel :=
  if c.seed = none then .error .missingSeed
  else if c.n_agents < 3 then .error .populationTooSmall
  else if c.n_neighbors % 2 = 1 then .error .oddNeighbors
  else if c.n_agents ≤ c.n_neighbors then .error .neighborsTooLarge
  else if c.network_randomness < 0 ∨ 1 < c.network_randomness then
    .error .randomnessOutOfRange
  else
    .ok (MarketModel.setup
      ((List.range c.n_agents).map (ringNeighbors c.n_agents c.n_neighbors)))

/-- Whether an `initRun` outcome is a configuration failure. -/
def isConfigError (x : Except ConfigurationError MarketModel) : Bool :=
  match x with
  | .error _ => true
  | .ok _ => false

/-- An agent with its pending flag cleared: two agents with the same
`stripFlag` image differ at most in `become_adopter`. -/
def stripFlag (a : ConsumerAgent) : ConsumerAgent :=
  { a with become_adopter := false }

/-- Pointwise `stripFlag` over a population. -/
def stripAll (l : List ConsumerAgent) : List ConsumerAgent :=
  l.map stripFlag

/-- The index targeted by one peer-contact attempt (if any), computed from
the snapshot without mutating it. -/
def attemptTarget (agents : List ConsumerAgent) (nbrs : List ℕ) (g : Rng) :
    Option ℕ × Rng :=
  match nbrs with
  | [] => (none, g)
  | _ :: _ =>
    let p := g.draw
    match nbrs[uniformIndex p.1 nbrs.length]? with
    | none => (none, p.2)
    | some j =>
      match agents[j]? with
      | none => (none, p.2)
      | some partner =>
        if partner.is_adopter then (none, p.2)
        else
          let q := p.2.draw
          (if q.1 < partner.adoption_fraction then some j else none, q.2)

/-- Targets of `n` successive peer-contact attempts. -/
def loopTargets : List ConsumerAgent → List ℕ → ℕ → Rng → List ℕ × Rng
  | _, _, 0, g => ([], g)
  | agents, nbrs, n + 1, g =>
    let p := attemptTarget agents nbrs g
    let q := loopTargets agents nbrs n p.2
    (p.1.toList ++ q.1, q.2)

/-- The indices whose pending flag agent `i`'s decision rule sets, as a
pure function of the tick-start snapshot and the stream it consumes. -/
def stepTargets (agents : List ConsumerAgent) (i : ℕ) (g : Rng) :
    List ℕ × Rng :=
  match agents[i]? with
  | none => ([], g)
  | some a =>
    if a.is_adopter then loopTargets agents a.neighbors a.contact_rate g
    else
      let p := g.draw
      (if p.1 < a.ad_effectiveness then [i] else [], p.2)

/-- Set the pending flag at every listed index. -/
def applyTargets (agents : List ConsumerAgent) (js : List ℕ) :
    List ConsumerAgent :=
  js.foldl setPending agents


/-- Setting a list entry to the value it already holds is the identity. -/
theorem list_set_self {α : Type} :
    ∀ (l : List α) (i : ℕ) (a : α), l[i]? = some a → l.set i a = l
  | [], _, _, h => by cases h
  | b :: t, 0, a, h => by
      simp only [List.getElem?_cons_zero, Option.some.injEq] at h
      simp [h]
  | b :: t, i + 1, a, h => by
      simp only [List.getElem?_cons_succ] at h
      simp only [List.set]
      rw [list_set_self t i a h]

/-- Mapping commutes with `List.set`. -/
theorem list_map_set {α β : Type} (f : α → β) :
    ∀ (l : List α) (i : ℕ) (a : α), (l.set i a).map f = (l.map f).set i (f a)
  | [], _, _ => rfl
  | _ :: _, 0, _ => rfl
  | b :: t, i + 1, a => by
      simp only [List.set, List.map]
      rw [list_map_set f t i a]

@[simp] theorem stripFlag_is_adopter (a : ConsumerAgent) :
    (stripFlag a).is_adopter = a.is_adopter := rfl

@[simp] theorem stripFlag_adoption_fraction (a : ConsumerAgent) :
    (stripFlag a).adoption_fraction = a.adoption_fraction := rfl

@[simp] theorem stripFlag_ad_effectiveness (a : ConsumerAgent) :
    (stripFlag a).ad_effectiveness = a.ad_effectiveness := rfl

@[simp] theorem stripFlag_contact_rate (a : ConsumerAgent) :
    (stripFlag a).contact_rate = a.contact_rate := rfl

@[simp] theorem stripFlag_neighbors (a : ConsumerAgent) :
    (stripFlag a).neighbors = a.neighbors := rfl

theorem stripAll_get (l : List ConsumerAgent) (j : ℕ) :
    (stripAll l)[j]? = l[j]?.map stripFlag := by
  simp [stripAll]

/-- Overwriting an entry with a value that differs only in the pending
flag does not change the stripped population. -/
theorem stripAll_set_of_strip_eq {l : List ConsumerAgent} {j : ℕ}
    {a b : ConsumerAgent} (h : l[j]? = some a)
    (hb : stripFlag b = stripFlag a) : stripAll (l.set j b) = stripAll l := by
  unfold stripAll
  rw [list_map_set, hb]
  exact list_set_self _ _ _ (by rw [List.getElem?_map, h]; rfl)

theorem stripFlag_adopt (a : ConsumerAgent) (p : ℚ) (g : Rng) :
    stripFlag (a.adopt p g).1 = stripFlag a := by
  simp only [ConsumerAgent.adopt]
  split <;> rfl

theorem stripAll_setPending (l : List ConsumerAgent) (j : ℕ) :
    stripAll (setPending l j) = stripAll l := by
  unfold setPending
  cases h : l[j]? with
  | none => rfl
  | some a => exact stripAll_set_of_strip_eq h rfl

theorem stripAll_applyTargets (l : List ConsumerAgent) :
    ∀ js : List ℕ, stripAll (applyTargets l js) = stripAll l := by
  intro js
  induction js generalizing l with
  | nil => rfl
  | cons j t ih =>
      simp only [applyTargets, List.foldl_cons] at *
      rw [ih, stripAll_setPending]

theorem applyTargets_append (l : List ConsumerAgent) (js ks : List ℕ) :
    applyTargets l (js ++ ks) = applyTargets (applyTargets l js) ks :=
  List.foldl_append ..

@[simp] theorem applyTargets_nil (l : List ConsumerAgent) :
    applyTargets l [] = l := rfl

/-- One peer-contact attempt is exactly: compute the (at most one) target
and set its pending flag, with the same stream consumption. -/
theorem contactAttempt_eq_target (ags : List ConsumerAgent)
    (self : ConsumerAgent) (g : Rng) :
    contactAttempt ags self g =
      (applyTargets ags (attemptTarget ags self.neighbors g).1.toList,
        (attemptTarget ags self.neighbors g).2) := by
  simp only [contactAttempt, attemptTarget, randomNeighbor]
  cases hn : self.neighbors with
  | nil => rfl
  | cons b bs =>
      cases hj : (b :: bs)[uniformIndex (g.draw).1 (b :: bs).length]? with
      | none => simp [hj]
      | some j =>
          simp only [hj]
          cases hp : ags[j]? with
          | none => simp [hp]
          | some partner =>
              simp only [hp]
              by_cases hi : partner.is_adopter
              · simp [hi]
              · rw [Bool.not_eq_true] at hi
                simp only [hi, if_false, Bool.false_eq_true, ConsumerAgent.adopt]
                by_cases hq : ((g.draw).2.draw).1 < partner.adoption_fraction
                · simp [hq, applyTargets, setPending, hp, hi]
                · simp [hq, list_set_self ags j partner hp]

theorem strip_eq_get {l l' : List ConsumerAgent}
    (h : stripAll l = stripAll l') (j : ℕ) :
    l[j]?.map stripFlag = l'[j]?.map stripFlag := by
  rw [← stripAll_get, ← stripAll_get, h]

/-- The target of an attempt depends only on the stripped population: the
decision rule never reads pending flags. -/
theorem attemptTarget_congr {l l' : List ConsumerAgent}
    (h : stripAll l = stripAll l') (nbrs : List ℕ) (g : Rng) :
    attemptTarget l nbrs g = attemptTarget l' nbrs g := by
  simp only [attemptTarget]
  cases nbrs with
  | nil => rfl
  | cons b bs =>
      cases hj : (b :: bs)[uniformIndex (g.draw).1 (b :: bs).length]? with
      | none => rfl
      | some j =>
          have hm := strip_eq_get h j
          cases hl : l[j]? with
          | none =>
              cases hl2 : l'[j]? with
              | none => simp [hl, hl2]
              | some a2 => rw [hl, hl2] at hm; cases hm
          | some a =>
              cases hl2 : l'[j]? with
              | none => rw [hl, hl2] at hm; cases hm
              | some a2 =>
                  rw [hl, hl2] at hm
                  simp only [Option.map_some'] at hm
                  have hm2 : stripFlag a = stripFlag a2 := by
                    injection hm
                  have hia : a.is_adopter = a2.is_adopter := by
                    rw [← stripFlag_is_adopter a, ← stripFlag_is_adopter a2, hm2]
                  have hfa : a.adoption_fraction = a2.adoption_fraction := by
                    rw [← stripFlag_adoption_fraction a,
                      ← stripFlag_adoption_fraction a2, hm2]
                  simp [hj, hl, hl2, hia, hfa]

theorem loopTargets_congr {l l' : List ConsumerAgent}
    (h : stripAll l = stripAll l') (nbrs : List ℕ) :
    ∀ (n : ℕ) (g : Rng), loopTargets l nbrs n g = loopTargets l' nbrs n g
  | 0, _ => rfl
  | n + 1, g => by
      simp only [loopTargets]
      rw [attemptTarget_congr h, loopTargets_congr h nbrs n]

theorem stepTargets_congr {l l' : List ConsumerAgent}
    (h : stripAll l = stripAll l') (i : ℕ) (g : Rng) :
    stepTargets l i g = stepTargets l' i g := by
  simp only [stepTargets]
  have hm := strip_eq_get h i
  cases hl : l[i]? with
  | none =>
      cases hl2 : l'[i]? with
      | none => rfl
      | some a2 => rw [hl, hl2] at hm; cases hm
  | some a =>
      cases hl2 : l'[i]? with
      | none => rw [hl, hl2] at hm; cases hm
      | some a2 =>
          rw [hl, hl2] at hm
          simp only [Option.map_some'] at hm
          have hm2 : stripFlag a = stripFlag a2 := by injection hm
          have hia : a.is_adopter = a2.is_adopter := by
            rw [← stripFlag_is_adopter a, ← stripFlag_is_adopter a2, hm2]
          have hnb : a.neighbors = a2.neighbors := by
            rw [← stripFlag_neighbors a, ← stripFlag_neighbors a2, hm2]
          have hcr : a.contact_rate = a2.contact_rate := by
            rw [← stripFlag_contact_rate a, ← stripFlag_contact_rate a2, hm2]
          have hae : a.ad_effectiveness = a2.ad_effectiveness := by
            rw [← stripFlag_ad_effectiveness a, ← stripFlag_ad_effectiveness a2,
              hm2]
          simp [hia, hnb, hcr, hae, loopTargets_congr h]

/-- The whole contact loop is exactly: compute all targets against the
snapshot and set their pending flags. -/
theorem contactLoop_eq_targets :
    ∀ (n : ℕ) (ags : List ConsumerAgent) (self : ConsumerAgent) (g : Rng),
    contactLoop ags self n g =
      (applyTargets ags (loopTargets ags self.neighbors n g).1,
        (loopTargets ags self.neighbors n g).2)
  | 0, _, _, _ => rfl
  | n + 1, ags, self, g => by
      simp only [contactLoop, loopTargets]
      rw [contactAttempt_eq_target, contactLoop_eq_targets n]
      rw [loopTargets_congr (stripAll_applyTargets ags _) self.neighbors]
      rw [← applyTargets_append]

/-- The decision rule of one agent is exactly: compute its targets and set
their pending flags. -/
theorem step_eq_targets (ags : List ConsumerAgent) (i : ℕ) (g : Rng) :
    ConsumerAgent.step ags i g =
      (applyTargets ags (stepTargets ags i g).1, (stepTargets ags i g).2) := by
  simp only [ConsumerAgent.step, stepTargets]
  cases hl : ags[i]? with
  | none => rfl
  | some a =>
      by_cases hi : a.is_adopter
      · simp only [hi, if_true]
        exact contactLoop_eq_targets a.contact_rate ags a g
      · rw [Bool.not_eq_true] at hi
        simp only [hi, Bool.false_eq_true, if_false, ConsumerAgent.adopt]
        by_cases hr : (g.draw).1 < a.ad_effectiveness
        · simp [hr, applyTargets, setPending, hl, hi]
        · simp [hr, list_set_self ags i a hl]

theorem stripAll_step (ags : List ConsumerAgent) (i : ℕ) (g : Rng) :
    stripAll (ConsumerAgent.step ags i g).1 = stripAll ags := by
  rw [step_eq_targets]
  exact stripAll_applyTargets ags _

/-- Phase 1 over any visiting order writes nothing but pending flags. -/
theorem stripAll_sweep (order : List ℕ) :
    ∀ (ags : List ConsumerAgent) (g : Rng),
    stripAll (sweep ags order g).1 = stripAll ags := by
  induction order with
  | nil => intro ags g; rfl
  | cons i o ih =>
      intro ags g
      simp only [sweep, List.foldl_cons] at *
      rw [ih, stripAll_step]

theorem stripAll_sweepIndexed (tapes : ℕ → Rng) (order : List ℕ) :
    ∀ ags : List ConsumerAgent,
    stripAll (sweepIndexed ags order tapes) = stripAll ags := by
  induction order with
  | nil => intro ags; rfl
  | cons i o ih =>
      intro ags
      simp only [sweepIndexed, List.foldl_cons] at *
      rw [ih, stripAll_step]

/-- Per-agent streams make phase 1 a bulk flag write: the final population
is the snapshot with the pending flags of all agents' targets set, where
each agent's targets are computed against the tick-start snapshot. -/
theorem sweepIndexed_eq_targets (tapes : ℕ → Rng) :
    ∀ (order : List ℕ) (ags : List ConsumerAgent),
    sweepIndexed ags order tapes =
      applyTargets ags
        (order.flatMap (fun i => (stepTargets ags i (tapes i)).1))
  | [], ags => rfl
  | i :: o, ags => by
      have hstep : (ConsumerAgent.step ags i (tapes i)).1 =
          applyTargets ags (stepTargets ags i (tapes i)).1 := by
        rw [step_eq_targets]
      have hrec : sweepIndexed ags (i :: o) tapes =
          sweepIndexed ((ConsumerAgent.step ags i (tapes i)).1) o tapes := rfl
      rw [hrec, hstep, sweepIndexed_eq_targets tapes o]
      have hcongr := stepTargets_congr
        (stripAll_applyTargets ags (stepTargets ags i (tapes i)).1)
      simp only [hcongr]
      rw [← applyTargets_append, List.flatMap_cons]

theorem setPending_comm (l : List ConsumerAgent) (j k : ℕ) :
    setPending (setPending l j) k = setPending (setPending l k) j := by
  by_cases hjk : j = k
  · rw [hjk]
  · cases hj : l[j]? with
    | none =>
        have hlj : setPending l j = l := by simp [setPending, hj]
        rw [hlj]
        cases hk : l[k]? with
        | none => simp [setPending, hk, hj]
        | some b =>
            simp only [setPending, hk]
            have : (l.set k { b with become_adopter := true })[j]? = none := by
              rw [List.getElem?_set_ne (fun h => hjk h.symm), hj]
            simp [this]
    | some a =>
        cases hk : l[k]? with
        | none =>
            have hlk : setPending l k = l := by simp [setPending, hk]
            rw [hlk]
            simp only [setPending, hj]
            have : (l.set j { a with become_adopter := true })[k]? = none := by
              rw [List.getElem?_set_ne hjk, hk]
            simp [this]
        | some b =>
            simp only [setPending, hj, hk]
            have h1 : (l.set j { a with become_adopter := true })[k]? =
                some b := by rw [List.getElem?_set_ne hjk, hk]
            have h2 : (l.set k { b with become_adopter := true })[j]? =
                some a := by
              rw [List.getElem?_set_ne (fun h => hjk h.symm), hj]
            simp only [h1, h2]
            exact List.set_comm _ _ _ hjk

theorem applyTargets_perm {js ks : List ℕ} (p : js.Perm ks)
    (l : List ConsumerAgent) : applyTargets l js = applyTargets l ks :=
  p.foldl_eq' (fun x _ y _ z => setPending_comm z x y) l

/-- There is a non-adopter at index `j` of the population. -/
def nonadopterAt (l : List ConsumerAgent) (j : ℕ) : Prop :=
  ∃ a, l[j]? = some a ∧ a.is_adopter = false

theorem nonadopterAt_congr {l l' : List ConsumerAgent}
    (h : stripAll l = stripAll l') {j : ℕ} :
    nonadopterAt l j → nonadopterAt l' j := by
  rintro ⟨a, ha, hia⟩
  have hm := strip_eq_get h j
  rw [ha] at hm
  cases hl2 : l'[j]? with
  | none => rw [hl2] at hm; cases hm
  | some a2 =>
      rw [hl2] at hm
      simp only [Option.map_some'] at hm
      have hm2 : stripFlag a = stripFlag a2 := by injection hm
      refine ⟨a2, hl2, ?_⟩
      rw [← stripFlag_is_adopter a2, ← hm2, stripFlag_is_adopter, hia]

theorem attemptTarget_nonadopter {ags : List ConsumerAgent} {nbrs : List ℕ}
    {g : Rng} {j : ℕ} (h : (attemptTarget ags nbrs g).1 = some j) :
    nonadopterAt ags j := by
  revert h
  simp only [attemptTarget]
  cases nbrs with
  | nil => simp
  | cons b bs =>
      cases hj : (b :: bs)[uniformIndex (g.draw).1 (b :: bs).length]? with
      | none => simp [hj]
      | some k =>
          simp only [hj]
          cases hp : ags[k]? with
          | none => simp [hp]
          | some partner =>
              simp only [hp]
              by_cases hi : partner.is_adopter
              · simp [hi]
              · rw [Bool.not_eq_true] at hi
                simp only [hi, Bool.false_eq_true, if_false]
                by_cases hq : ((g.draw).2.draw).1 < partner.adoption_fraction
                · simp only [hq, if_true]
                  intro h
                  cases h
                  exact ⟨partner, hp, hi⟩
                · simp [hq]

theorem loopTargets_nonadopter {ags : List ConsumerAgent} {nbrs : List ℕ} :
    ∀ {n : ℕ} {g : Rng} {j : ℕ}, j ∈ (loopTargets ags nbrs n g).1 →
      nonadopterAt ags j := by
  intro n
  induction n with
  | zero => intro g j h; cases h
  | succ n ih =>
      intro g j h
      simp only [loopTargets, List.mem_append] at h
      rcases h with h | h
      · cases hT : (attemptTarget ags nbrs g).1 with
        | none => rw [hT] at h; cases h
        | some k =>
            rw [hT] at h
            simp only [Option.toList_some, List.mem_singleton] at h
            subst h
            exact attemptTarget_nonadopter hT
      · exact ih h

theorem stepTargets_nonadopter {ags : List ConsumerAgent} {i : ℕ} {g : Rng}
    {j : ℕ} (h : j ∈ (stepTargets ags i g).1) : nonadopterAt ags j := by
  unfold stepTargets at h
  cases hl : ags[i]? with
  | none => rw [hl] at h; cases h
  | some a =>
      rw [hl] at h
      by_cases hi : a.is_adopter
      · simp only [hi, if_true] at h
        exact loopTargets_nonadopter h
      · rw [Bool.not_eq_true] at hi
        simp only [hi, Bool.false_eq_true, if_false] at h
        by_cases hr : (g.draw).1 < a.ad_effectiveness
        · simp only [hr, if_true, List.mem_singleton] at h
          subst h
          exact ⟨a, hl, hi⟩
        · simp [hr] at h

/-- The pending-implies-non-adopter invariant of a population. -/
def PendingFresh (l : List ConsumerAgent) : Prop :=
  ∀ a ∈ l, a.become_adopter = true → a.is_adopter = false

theorem pendingFresh_setPending {l : List ConsumerAgent} {j : ℕ}
    (hR : PendingFresh l) (hj : nonadopterAt l j) :
    PendingFresh (setPending l j) := by
  rcases hj with ⟨a, ha, hia⟩
  simp only [setPending, ha]
  intro b hb _
  rcases List.mem_or_eq_of_mem_set hb with hb | hb
  · exact hR b hb (by assumption)
  · rw [hb]
    exact hia

theorem pendingFresh_applyTargets {l : List ConsumerAgent} {js : List ℕ}
    (hR : PendingFresh l) (hjs : ∀ j ∈ js, nonadopterAt l j) :
    PendingFresh (applyTargets l js) := by
  induction js generalizing l with
  | nil => exact hR
  | cons j t ih =>
      simp only [applyTargets, List.foldl_cons]
      have hRj := pendingFresh_setPending hR (hjs j (List.mem_cons_self j t))
      refine ih hRj ?_
      intro k hk
      exact nonadopterAt_congr (stripAll_setPending l j).symm
        (hjs k (List.mem_cons_of_mem j hk))

theorem pendingFresh_step {ags : List ConsumerAgent} {i : ℕ} {g : Rng}
    (hR : PendingFresh ags) :
    PendingFresh (ConsumerAgent.step ags i g).1 := by
  rw [step_eq_targets]
  exact pendingFresh_applyTargets hR (fun j hj => stepTargets_nonadopter hj)

theorem pendingFresh_sweep (order : List ℕ) :
    ∀ {ags : List ConsumerAgent} {g : Rng}, PendingFresh ags →
      PendingFresh (sweep ags order g).1 := by
  induction order with
  | nil => intro ags g h; exact h
  | cons i o ih =>
      intro ags g h
      simp only [sweep, List.foldl_cons] at *
      exact ih (pendingFresh_step h)

@[simp] theorem update_is_adopter (a : ConsumerAgent) :
    (ConsumerAgent.update a).is_adopter = (a.is_adopter || a.become_adopter) := by
  unfold ConsumerAgent.update
  by_cases h : a.become_adopter <;> simp [h]

@[simp] theorem update_become (a : ConsumerAgent) :
    (ConsumerAgent.update a).become_adopter = false := by
  unfold ConsumerAgent.update
  by_cases h : a.become_adopter <;> simp [h]

theorem countP_congr_fn {α : Type} {p q : α → Bool} :
    ∀ l : List α, (∀ a ∈ l, p a = q a) → l.countP p = l.countP q
  | [], _ => rfl
  | a :: t, h => by
      have ht := countP_congr_fn t (fun b hb => h b (List.mem_cons_of_mem a hb))
      have ha := h a (List.mem_cons_self a t)
      simp [List.countP_cons, ht, ha]

/-- When no agent is both an adopter and pending, the adopters-or-pending
count splits into the two separate counts. -/
theorem countP_or_disjoint :
    ∀ l : List ConsumerAgent, PendingFresh l →
      l.countP (fun a => a.is_adopter || a.become_adopter) =
        l.countP (fun a => a.is_adopter) +
          l.countP (fun a => a.become_adopter)
  | [], _ => rfl
  | a :: t, h => by
      have ht := countP_or_disjoint t
        (fun b hb => h b (List.mem_cons_of_mem a hb))
      by_cases ha : a.become_adopter
      · have hia : a.is_adopter = false := h a (List.mem_cons_self a t) ha
        simp only [List.countP_cons, ha, hia, ht]
        simp
        omega
      · rw [Bool.not_eq_true] at ha
        simp only [List.countP_cons, ha, ht]
        simp
        omega

theorem countP_is_of_strip_eq {l l' : List ConsumerAgent}
    (h : stripAll l = stripAll l') :
    l.countP (fun a => a.is_adopter) = l'.countP (fun a => a.is_adopter) := by
  have h1 : ∀ k : List ConsumerAgent,
      (stripAll k).countP (fun a => a.is_adopter) =
        k.countP (fun a => a.is_adopter) := by
    intro k
    unfold stripAll
    rw [List.countP_map]
    exact countP_congr_fn k (fun a _ => rfl)
  rw [← h1 l, ← h1 l', h]

theorem length_of_strip_eq {l l' : List ConsumerAgent}
    (h : stripAll l = stripAll l') : l.length = l'.length := by
  have := congrArg List.length h
  simpa [stripAll] using this

/-- The run invariant: fixed population size, counter equal to the number
of adopters, pending flags only on non-adopters, a non-decreasing record
whose next entry would extend it, and all records bounded by the
population size. -/
def RunInv (n : ℕ) (m : MarketModel) : Prop :=
  m.agents.length = n ∧
  m.n_adopters = m.agents.countP (fun a => a.is_adopter) ∧
  PendingFresh m.agents ∧
  List.Chain' (· ≤ ·) (m.log ++ [m.n_adopters]) ∧
  (∀ x ∈ m.log, x ≤ n)

theorem inv_setup (nbrs : List (List ℕ)) :
    RunInv nbrs.length (MarketModel.setup nbrs) := by
  refine ⟨by simp [MarketModel.setup], ?_, ?_, ?_, ?_⟩
  · simp only [MarketModel.setup, List.countP_map]
    have hc : List.countP ((fun a => a.is_adopter) ∘ ConsumerAgent.setup)
        nbrs = List.countP (fun _ => false) nbrs :=
      countP_congr_fn nbrs (fun a _ => rfl)
    rw [hc]
    simp
  · intro a ha hba
    rcases List.mem_map.mp ha with ⟨x, _, hx⟩
    rw [← hx] at hba
    cases hba
  · simp [MarketModel.setup]
  · simp [MarketModel.setup]

theorem step_agents (m : MarketModel) (g : Rng) :
    (m.step g).1.agents = (sweep m.agents (List.range m.agents.length) g).1 :=
  rfl

theorem step_frame (m : MarketModel) (g : Rng) :
    (m.step g).1.n_adopters = m.n_adopters ∧ (m.step g).1.log = m.log :=
  ⟨rfl, rfl⟩

theorem inv_step {n : ℕ} {m : MarketModel} (h : RunInv n m) (g : Rng) :
    RunInv n (m.step g).1 := by
  obtain ⟨hlen, hcount, hR, hchain, hlog⟩ := h
  have hs : stripAll (m.step g).1.agents = stripAll m.agents := by
    rw [step_agents]
    exact stripAll_sweep _ _ _
  refine ⟨?_, ?_, ?_, ?_, ?_⟩
  · rw [length_of_strip_eq hs, hlen]
  · rw [(step_frame m g).1, countP_is_of_strip_eq hs, hcount]
  · rw [step_agents]
    exact pendingFresh_sweep _ hR
  · rw [(step_frame m g).1, (step_frame m g).2]
    exact hchain
  · rw [(step_frame m g).2]
    exact hlog

theorem chain_append_ge {xs : List ℕ} {c d : ℕ}
    (h : List.Chain' (· ≤ ·) (xs ++ [c])) (hcd : c ≤ d) :
    List.Chain' (· ≤ ·) ((xs ++ [d]) ++ [d]) := by
  rw [List.chain'_append] at h
  obtain ⟨h1, _, h3⟩ := h
  rw [List.chain'_append]
  refine ⟨?_, List.chain'_singleton d, ?_⟩
  · rw [List.chain'_append]
    refine ⟨h1, List.chain'_singleton d, ?_⟩
    intro x hx y hy
    simp only [List.head?_cons, Option.mem_def, Option.some.injEq] at hy
    subst hy
    exact le_trans (h3 x hx c (by simp)) hcd
  · intro x hx y hy
    simp only [List.getLast?_concat, Option.mem_def, Option.some.injEq] at hx
    simp only [List.head?_cons, Option.mem_def, Option.some.injEq] at hy
    subst hx
    subst hy
    exact le_refl d

theorem update_agents (m : MarketModel) :
    m.update.agents = m.agents.map ConsumerAgent.update := rfl

theorem update_count (m : MarketModel) :
    m.update.n_adopters =
      m.n_adopters + m.agents.countP (fun a => a.become_adopter) := rfl

theorem update_log (m : MarketModel) :
    m.update.log = m.log ++ [m.update.n_adopters] := rfl

theorem inv_update {n : ℕ} {m : MarketModel} (h : RunInv n m) :
    RunInv n m.update := by
  obtain ⟨hlen, hcount, hR, hchain, hlog⟩ := h
  have hcnt : m.update.n_adopters =
      m.update.agents.countP (fun a => a.is_adopter) := by
    rw [update_count, update_agents, List.countP_map]
    have hc : List.countP ((fun a => a.is_adopter) ∘ ConsumerAgent.update)
        m.agents =
        List.countP (fun a => a.is_adopter || a.become_adopter) m.agents :=
      countP_congr_fn m.agents (fun a _ => update_is_adopter a)
    rw [hc, countP_or_disjoint m.agents hR, hcount]
  have hge : m.n_adopters ≤ m.update.n_adopters := by
    rw [update_count]
    exact Nat.le_add_right _ _
  refine ⟨?_, hcnt, ?_, ?_, ?_⟩
  · rw [update_agents, List.length_map, hlen]
  · intro a ha hba
    rw [update_agents] at ha
    rcases List.mem_map.mp ha with ⟨x, _, hx⟩
    rw [← hx] at hba
    rw [update_become] at hba
    cases hba
  · rw [update_log]
    exact chain_append_ge hchain hge
  · rw [update_log]
    intro x hx
    rcases List.mem_append.mp hx with hx | hx
    · exact hlog x hx
    · simp only [List.mem_singleton] at hx
      subst hx
      rw [hcnt, ← (by rw [update_agents, List.length_map, hlen] :
        m.update.agents.length = n)]
      exact List.countP_le_length _

theorem inv_tick {n : ℕ} {m : MarketModel} (h : RunInv n m) (g : Rng) :
    RunInv n (m.tick g).1 :=
  inv_update (inv_step h g)

theorem inv_runAux {n : ℕ} :
    ∀ (t : ℕ) (p : MarketModel × Rng), RunInv n p.1 →
      RunInv n (runAux t p).1
  | 0, _, h => h
  | t + 1, p, h => inv_runAux t (p.1.tick p.2) (inv_tick h p.2)

theorem tick_log (m : MarketModel) (g : Rng) :
    (m.tick g).1.log = m.log ++ [(m.tick g).1.n_adopters] := rfl

theorem runAux_log_length :
    ∀ (t : ℕ) (p : MarketModel × Rng),
      (runAux t p).1.log.length = p.1.log.length + t
  | 0, _ => rfl
  | t + 1, p => by
      have h1 : runAux (t + 1) p = runAux t (p.1.tick p.2) := rfl
      rw [h1, runAux_log_length t, tick_log, List.length_append]
      simp
      omega

theorem runAux_log_grows :
    ∀ (t : ℕ) (p : MarketModel × Rng),
      ∃ l2, (runAux t p).1.log = p.1.log ++ l2
  | 0, p => ⟨[], by simp [runAux]⟩
  | t + 1, p => by
      obtain ⟨l2, hl⟩ := runAux_log_grows t (p.1.tick p.2)
      refine ⟨[(p.1.tick p.2).1.n_adopters] ++ l2, ?_⟩
      rw [show runAux (t + 1) p = runAux t (p.1.tick p.2) from rfl, hl,
        tick_log, List.append_assoc]

theorem adopterAt_tick {m : MarketModel} {g : Rng} {j : ℕ}
    (h : adopterAt m j = true) : adopterAt (m.tick g).1 j = true := by
  unfold adopterAt at h ⊢
  have hs : stripAll (m.step g).1.agents = stripAll m.agents := by
    rw [step_agents]
    exact stripAll_sweep _ _ _
  have hm := strip_eq_get hs j
  cases hl : m.agents[j]? with
  | none => rw [hl] at h; cases h
  | some a =>
      rw [hl] at h
      have hA : a.is_adopter = true := h
      cases hl2 : (m.step g).1.agents[j]? with
      | none => rw [hl, hl2] at hm; cases hm
      | some a2 =>
          rw [hl, hl2] at hm
          simp only [Option.map_some'] at hm
          have hm2 : stripFlag a2 = stripFlag a := by injection hm
          have hia : a2.is_adopter = true := by
            rw [← stripFlag_is_adopter a2, hm2, stripFlag_is_adopter, hA]
          have hagents : (m.tick g).1.agents =
              (m.step g).1.agents.map ConsumerAgent.update := rfl
          rw [hagents, List.getElem?_map, hl2]
          simp [hia]

theorem runAux_add :
    ∀ (a b : ℕ) (p : MarketModel × Rng),
      runAux (a + b) p = runAux b (runAux a p)
  | 0, b, p => by rw [Nat.zero_add]; rfl
  | a + 1, b, p => by
      have h1 : a + 1 + b = (a + b) + 1 := by omega
      rw [h1]
      have h2 : runAux ((a + b) + 1) p = runAux (a + b) (p.1.tick p.2) := rfl
      rw [h2, runAux_add a b (p.1.tick p.2)]
      rfl

theorem adopterAt_runAux_mono :
    ∀ (t : ℕ) (p : MarketModel × Rng) (j : ℕ),
      adopterAt p.1 j = true → adopterAt (runAux t p).1 j = true
  | 0, _, _, h => h
  | t + 1, p, j, h =>
      adopterAt_runAux_mono t (p.1.tick p.2) j (adopterAt_tick h)

theorem specContacts_nil :
    ∀ (n : ℕ) (ags : List ConsumerAgent) (g : Rng),
      specContacts ags [] n g = (ags, g)
  | 0, _, _ => rfl
  | _ + 1, _, _ => rfl

/-- The source contact loop coincides with the spec's description of the
peer-contact attempts. -/
theorem contactLoop_eq_specContacts (self : ConsumerAgent) :
    ∀ (n : ℕ) (ags : List ConsumerAgent) (g : Rng),
      contactLoop ags self n g = specContacts ags self.neighbors n g := by
  intro n
  induction n with
  | zero =>
      intro ags g
      cases self.neighbors <;> rfl
  | succ n ih =>
      intro ags g
      have hrec : contactLoop ags self (n + 1) g =
          contactLoop (contactAttempt ags self g).1 self n
            (contactAttempt ags self g).2 := rfl
      rw [hrec, ih]
      cases hn : self.neighbors with
      | nil =>
          have hA : contactAttempt ags self g = (ags, g) := by
            simp [contactAttempt, randomNeighbor, hn]
          rw [hA, specContacts_nil, specContacts_nil]
      | cons b bs =>
          simp only [contactAttempt, randomNeighbor, hn, specContacts,
            List.length_cons]
          cases hj : (b :: bs)[uniformIndex (g.draw).1 (bs.length + 1)]? with
          | none => simp [hj]
          | some j =>
              simp only [hj]
              cases hp : ags[j]? with
              | none => simp [hp]
              | some partner =>
                  simp only [hp]
                  by_cases hi : partner.is_adopter
                  · simp [hi]
                  · rw [Bool.not_eq_true] at hi
                    simp only [hi, Bool.false_eq_true, if_false,
                      ConsumerAgent.adopt]
                    by_cases hq :
                        ((g.draw).2.draw).1 < partner.adoption_fraction
                    · simp [hq, setPending, hp, hi]
                    · simp [hq, list_set_self ags j partner hp]

/-- The per-agent decision rule of the source coincides with the spec's
description (§4.3). -/
theorem step_eq_specDecide (ags : List ConsumerAgent) (i : ℕ) (g : Rng) :
    ConsumerAgent.step ags i g = specDecide ags i g := by
  simp only [ConsumerAgent.step, specDecide]
  cases hl : ags[i]? with
  | none => rfl
  | some a =>
      by_cases hi : a.is_adopter
      · simp only [hi, if_true]
        exact contactLoop_eq_specContacts a a.contact_rate ags g
      · rw [Bool.not_eq_true] at hi
        simp only [hi, Bool.false_eq_true, if_false, ConsumerAgent.adopt]
        by_cases hr : (g.draw).1 < a.ad_effectiveness
        · simp [hr, setPending, hl, hi]
        · simp [hr, list_set_self ags i a hl]

/-- The draw-to-index map is uniform: for a draw in `[0,1)`, index `k` is
selected exactly when the draw falls in the interval
`[k/len, (k+1)/len)`, whose width is `1/len` for every `k`. -/
theorem uniformIndex_eq_iff {r : ℚ} {len k : ℕ} (h0 : 0 ≤ r) (h1 : r < 1)
    (hk : k < len) :
    uniformIndex r len = k ↔
      ((k : ℚ) / (len : ℚ) ≤ r ∧ r < ((k : ℚ) + 1) / (len : ℚ)) := by
  have hlen : 0 < len := Nat.lt_of_le_of_lt (Nat.zero_le k) hk
  have hlenQ : (0 : ℚ) < (len : ℚ) := by exact_mod_cast hlen
  have hmul0 : 0 ≤ r * (len : ℚ) := mul_nonneg h0 (le_of_lt hlenQ)
  have hfl0 : 0 ≤ ⌊r * (len : ℚ)⌋ := Int.floor_nonneg.mpr hmul0
  have hmullt : r * (len : ℚ) < (len : ℚ) := by
    have := mul_lt_mul_of_pos_right h1 hlenQ
    rwa [one_mul] at this
  have hfllt : ⌊r * (len : ℚ)⌋ < (len : ℤ) := by
    rw [Int.floor_lt]
    exact_mod_cast hmullt
  have hmin : uniformIndex r len = Int.toNat ⌊r * (len : ℚ)⌋ := by
    unfold uniformIndex
    exact min_eq_left (by omega)
  rw [hmin]
  have hdiv1 : ((k : ℚ) / (len : ℚ) ≤ r) ↔ ((k : ℚ) ≤ r * (len : ℚ)) :=
    div_le_iff₀ hlenQ
  have hdiv2 : (r < ((k : ℚ) + 1) / (len : ℚ)) ↔
      (r * (len : ℚ) < (k : ℚ) + 1) := lt_div_iff₀ hlenQ
  rw [hdiv1, hdiv2]
  constructor
  · intro he
    have hfe : ⌊r * (len : ℚ)⌋ = (k : ℤ) := by omega
    rcases Int.floor_eq_iff.mp hfe with ⟨ha, hb⟩
    constructor
    · exact_mod_cast ha
    · exact_mod_cast hb
  · rintro ⟨ha, hb⟩
    have hfe : ⌊r * (len : ℚ)⌋ = (k : ℤ) := by
      rw [Int.floor_eq_iff]
      constructor
      · exact_mod_cast ha
      · push_cast
        exact hb
    omega

theorem contactLoop_no_neighbors {self : ConsumerAgent}
    (hnb : self.neighbors = []) :
    ∀ (n : ℕ) (ags : List ConsumerAgent) (g : Rng),
      contactLoop ags self n g = (ags, g)
  | 0, _, _ => rfl
  | n + 1, ags, g => by
      have hA : contactAttempt ags self g = (ags, g) := by
        simp [contactAttempt, randomNeighbor, hnb]
      have hrec : contactLoop ags self (n + 1) g =
          contactLoop (contactAttempt ags self g).1 self n
            (contactAttempt ags self g).2 := rfl
      rw [hrec, hA]
      exact contactLoop_no_neighbors hnb n ags g

/-- A stream whose first draw is 0 and whose later draws are 1. -/
def tapeZeroThenOne : Rng := ⟨fun k => if k = 0 then 0 else 1, 0⟩

/-- The all-zeros stream: every probability check succeeds. -/
def tapeZero : Rng := ⟨fun _ => 0, 0⟩

/-- Two isolated fresh consumers. -/
def twoAgents : List ConsumerAgent :=
  [ConsumerAgent.setup [], ConsumerAgent.setup []]

/-- C1 as stated is false on the code: phase 1 draws all randomness from
the one shared stream, so permuting the visiting order hands different
draws to different agents.  With two fresh consumers and the stream
`0, 1, 1, …`, whichever agent is visited first draws `0 < 1/100` and sets
its pending flag, so the two orders produce different pending sets. -/
theorem c1_order_independence_counterexample :
    ([0, 1] : List ℕ).Perm [1, 0] ∧
      (sweep twoAgents [0, 1] tapeZeroThenOne).1.map
          (fun a => a.become_adopter) ≠
        (sweep twoAgents [1, 0] tapeZeroThenOne).1.map
          (fun a => a.become_adopter) :=
  ⟨by decide, by decide⟩

/-- C1 (amended): when each agent draws from its own stream — randomness
attached to the agent rather than to the visiting order — permuting the
iteration order of phase 1 leaves the entire end-of-phase-1 population,
and hence the set of agents with `become_adopter` set, unchanged. -/
theorem c1_order_independence (ags : List ConsumerAgent) (tapes : ℕ → Rng)
    {o₁ o₂ : List ℕ} (hperm : o₁.Perm o₂) :
    sweepIndexed ags o₁ tapes = sweepIndexed ags o₂ tapes := by
  rw [sweepIndexed_eq_targets, sweepIndexed_eq_targets]
  exact applyTargets_perm (hperm.flatMap_right _) ags

theorem c1_order_independence_witness :
    sweepIndexed twoAgents [0, 1] (fun _ => tapeZero) =
      sweepIndexed twoAgents [1, 0] (fun _ => tapeZero) :=
  c1_order_independence twoAgents (fun _ => tapeZero) (by decide)

/-- C2: along any run from a fresh setup, an agent that is an adopter at
tick `t` is still an adopter at every later tick `u` (flags flip only
false→true, never back), and the recorded `n_adopters` time series is
non-decreasing entry over entry. -/
theorem c2_monotonicity (nbrs : List (List ℕ)) (g : Rng) (steps : ℕ) :
    (∀ t u j, t ≤ u →
      adopterAt (stateAt (MarketModel.setup nbrs) g t) j = true →
      adopterAt (stateAt (MarketModel.setup nbrs) g u) j = true) ∧
    List.Chain' (· ≤ ·) (((MarketModel.setup nbrs).run steps g).1.log) := by
  constructor
  · intro t u j htu h
    obtain ⟨k, hk⟩ := Nat.exists_eq_add_of_le htu
    subst hk
    unfold stateAt at h ⊢
    rw [runAux_add]
    exact adopterAt_runAux_mono k _ j h
  · have hinv := inv_runAux steps ((MarketModel.setup nbrs).update, g)
      (inv_update (inv_setup nbrs))
    obtain ⟨_, _, _, hchain, _⟩ := hinv
    exact List.Chain'.prefix hchain ⟨_, rfl⟩

theorem c2_monotonicity_witness :
    adopterAt (stateAt (MarketModel.setup [[], []]) tapeZero 2) 0 = true :=
  (c2_monotonicity [[], []] tapeZero 2).1 1 2 0 (by decide) (by decide)

/-- C3: the commit phase makes adopters of exactly the agents whose
pending flag is set (keeping existing adopters), clears every pending
flag, and — when the phase-1 invariant holds that pending agents are not
yet adopters — increments `n_adopters` by exactly the number of agents
that transitioned, with no double counting since the flag is a single
boolean however many contacts targeted the agent. -/
theorem c3_commit (m : MarketModel)
    (hR : ∀ a ∈ m.agents, a.become_adopter = true → a.is_adopter = false) :
    (∀ j : ℕ, (m.update.agents[j]?).map (fun a => a.is_adopter) =
        (m.agents[j]?).map (fun a => a.is_adopter || a.become_adopter)) ∧
    (∀ a ∈ m.update.agents, a.become_adopter = false) ∧
    m.update.n_adopters = m.n_adopters +
      m.agents.countP (fun a => a.become_adopter && !a.is_adopter) := by
  refine ⟨?_, ?_, ?_⟩
  · intro j
    rw [update_agents, List.getElem?_map]
    cases h : m.agents[j]? <;> simp
  · intro a ha
    rw [update_agents] at ha
    rcases List.mem_map.mp ha with ⟨x, _, hx⟩
    rw [← hx, update_become]
  · rw [update_count]
    congr 1
    refine countP_congr_fn m.agents (fun a ha => ?_)
    by_cases hb : a.become_adopter
    · rw [hb, hR a ha hb]
      rfl
    · rw [Bool.not_eq_true] at hb
      rw [hb]
      rfl

/-- A model mid-tick: agent 0 pending and not yet an adopter, agent 1 an
existing adopter. -/
def commitExample : MarketModel :=
  { agents := [⟨mkRat 1 100, mkRat 1 100, 1, true, false, [1]⟩,
      ⟨mkRat 1 100, mkRat 1 100, 1, false, true, [0]⟩]
    n_adopters := 1
    log := [0, 1] }

theorem c3_commit_witness :
    commitExample.update.n_adopters = commitExample.n_adopters +
      commitExample.agents.countP
        (fun a => a.become_adopter && !a.is_adopter) :=
  (c3_commit commitExample (by decide)).2.2

/-- C4: the source decision rule agrees everywhere with the spec's §4.3
description (adopters make exactly `contact_rate` attempts, each choosing
a neighbor with replacement and converting a non-adopter target exactly
when its draw beats `adoption_fraction`; non-adopters make the single
advertisement draw against `ad_effectiveness`), and the neighbor choice is
uniform: index `k` of a length-`len` list is selected exactly when the
draw lands in the width-`1/len` window `[k/len, (k+1)/len)`. -/
theorem c4_decision_rule :
    (∀ (ags : List ConsumerAgent) (i : ℕ) (g : Rng),
      ConsumerAgent.step ags i g = specDecide ags i g) ∧
    (∀ (r : ℚ) (len k : ℕ), 0 ≤ r → r < 1 → k < len →
      (uniformIndex r len = k ↔
        ((k : ℚ) / (len : ℚ) ≤ r ∧ r < ((k : ℚ) + 1) / (len : ℚ)))) :=
  ⟨step_eq_specDecide, fun _ _ _ h0 h1 hk => uniformIndex_eq_iff h0 h1 hk⟩

theorem c4_decision_rule_witness :
    ConsumerAgent.step twoAgents 0 tapeZero = specDecide twoAgents 0 tapeZero
      ∧ uniformIndex (1/2) 3 = 1 :=
  ⟨c4_decision_rule.1 twoAgents 0 tapeZero,
    (c4_decision_rule.2 (1/2) 3 1 (by norm_num) (by norm_num)
      (by norm_num)).mpr ⟨by norm_num, by norm_num⟩⟩

/-- C5: the phase-1 sweep of `ConsumerAgent.step` over the population
changes no field but `become_adopter` (the stripped population is fixed),
in particular no agent's `is_adopter` changes, and the model's
`n_adopters` counter and record are untouched. -/
theorem c5_phase1_frame (m : MarketModel) (g : Rng) :
    stripAll (m.step g).1.agents = stripAll m.agents ∧
    (∀ j : ℕ, ((m.step g).1.agents[j]?).map (fun a => a.is_adopter) =
      (m.agents[j]?).map (fun a => a.is_adopter)) ∧
    (m.step g).1.n_adopters = m.n_adopters ∧
    (m.step g).1.log = m.log := by
  have hs : stripAll (m.step g).1.agents = stripAll m.agents := by
    rw [step_agents]
    exact stripAll_sweep _ _ _
  refine ⟨hs, ?_, rfl, rfl⟩
  intro j
  have hm := strip_eq_get hs j
  cases h1 : (m.step g).1.agents[j]? with
  | none =>
      cases h2 : m.agents[j]? with
      | none => simp
      | some b => rw [h1, h2] at hm; cases hm
  | some a =>
      cases h2 : m.agents[j]? with
      | none => rw [h1, h2] at hm; cases hm
      | some b =>
          rw [h1, h2] at hm
          simp only [Option.map_some'] at hm ⊢
          have hm2 : stripFlag a = stripFlag b := by injection hm
          have hab : a.is_adopter = b.is_adopter := by
            rw [← stripFlag_is_adopter a, ← stripFlag_is_adopter b, hm2]
          rw [hab]

theorem c5_phase1_frame_witness :
    ((MarketModel.setup [[], []]).step tapeZero).1.n_adopters =
      (MarketModel.setup [[], []]).n_adopters :=
  (c5_phase1_frame (MarketModel.setup [[], []]) tapeZero).2.2.1

/-- C6 fails as stated: the scheduler records once after setup and once
after each of the `max_steps` ticks, so a run with `steps = 1` records 2
entries, not 1. -/
theorem c6_length_counterexample :
    ((MarketModel.setup [[], [], []]).run 1 tapeZero).1.log.length ≠ 1 := by
  decide

/-- C6 (amended): every recorded `n_adopters` value is at most `n_agents`,
and the returned time series has exactly `max_steps + 1` entries (the
extra one being the record taken at `t = 0`, before the first step). -/
theorem c6_bounded_series (nbrs : List (List ℕ)) (steps : ℕ) (g : Rng) :
    ((MarketModel.setup nbrs).run steps g).1.log.length = steps + 1 ∧
    ∀ x ∈ ((MarketModel.setup nbrs).run steps g).1.log, x ≤ nbrs.length := by
  constructor
  · unfold MarketModel.run
    rw [runAux_log_length]
    have h1 : (MarketModel.setup nbrs).update.log.length = 1 := by
      rw [update_log]
      simp [MarketModel.setup]
    rw [h1]
    omega
  · have hinv := inv_runAux steps ((MarketModel.setup nbrs).update, g)
      (inv_update (inv_setup nbrs))
    exact hinv.2.2.2.2

theorem c6_bounded_series_witness :
    (0 : ℕ) ∈ ((MarketModel.setup [[], []]).run 0 tapeZero).1.log ∧
      (0 : ℕ) ≤ ([[], []] : List (List ℕ)).length :=
  ⟨by decide, (c6_bounded_series [[], []] 0 tapeZero).2 0 (by decide)⟩

/-- C7: a run configuration without a seed is rejected with
`ConfigurationError` before any model state is built (there is no hidden
default seed). -/
theorem c7_missing_seed (c : RunConfig) (h : c.seed = none) :
    initRun c = Except.error ConfigurationError.missingSeed := by
  simp [initRun, h]

/-- A configuration identical to the notebook's parameters except that the
seed is omitted. -/
def cfgNoSeed : RunConfig := ⟨none, 300, 1000, 2, mkRat 1 2⟩

theorem c7_missing_seed_witness :
    initRun cfgNoSeed = Except.error ConfigurationError.missingSeed :=
  c7_missing_seed cfgNoSeed rfl

/-- C8: initialization fails with a `ConfigurationError` whenever
`n_neighbors` is odd, or `n_neighbors ≥ n_agents`, or `n_agents < 3`. -/
theorem c8_invalid_graph_config (c : RunConfig)
    (h : c.n_neighbors % 2 = 1 ∨ c.n_agents ≤ c.n_neighbors ∨
      c.n_agents < 3) :
    isConfigError (initRun c) = true := by
  unfold initRun isConfigError
  by_cases h1 : c.seed = none
  · simp [h1]
  · simp only [h1, if_false]
    by_cases h2 : c.n_agents < 3
    · simp [h2]
    · simp only [h2, if_false]
      by_cases h3 : c.n_neighbors % 2 = 1
      · simp [h3]
      · simp only [h3, if_false]
        by_cases h4 : c.n_agents ≤ c.n_neighbors
        · simp [h4]
        · rcases h with h | h | h
          · exact absurd h h3
          · exact absurd h h4
          · exact absurd h h2

/-- The notebook's parameters with an odd neighbor count. -/
def cfgOddNeighbors : RunConfig := ⟨some 1, 300, 1000, 3, mkRat 1 2⟩

theorem c8_invalid_graph_config_witness :
    cfgOddNeighbors.n_neighbors % 2 = 1 ∧
      isConfigError (initRun cfgOddNeighbors) = true :=
  ⟨by decide, c8_invalid_graph_config cfgOddNeighbors (Or.inl (by decide))⟩

/-- C9: an adopter with an empty neighbor list performs no peer contacts:
its decision rule returns the population and the stream unchanged (being a
total function, it raises nothing). -/
theorem c9_isolated_adopter (ags : List ConsumerAgent) (i : ℕ) (g : Rng)
    (a : ConsumerAgent) (ha : ags[i]? = some a) (had : a.is_adopter = true)
    (hnb : a.neighbors = []) : ConsumerAgent.step ags i g = (ags, g) := by
  simp only [ConsumerAgent.step, ha, had, if_true]
  exact contactLoop_no_neighbors hnb a.contact_rate ags g

/-- An isolated consumer that is already an adopter. -/
def agIso : ConsumerAgent := ⟨mkRat 1 100, mkRat 1 100, 1, false, true, []⟩

theorem c9_isolated_adopter_witness :
    ConsumerAgent.step [agIso] 0 tapeZero = ([agIso], tapeZero) :=
  c9_isolated_adopter [agIso] 0 tapeZero agIso rfl rfl rfl

/-- C10: the model records `n_adopters` once immediately after setup,
before the first step, so the series has `steps + 1` entries, the first
recorded value is `0`, and every agent starts as a non-adopter with a
clear pending flag. -/
theorem c10_initial_record (nbrs : List (List ℕ)) (steps : ℕ) (g : Rng) :
    ((MarketModel.setup nbrs).run steps g).1.log.length = steps + 1 ∧
    ((MarketModel.setup nbrs).run steps g).1.log.head? = some 0 ∧
    ∀ a ∈ (MarketModel.setup nbrs).agents,
      a.is_adopter = false ∧ a.become_adopter = false := by
  have hcnt0 : (MarketModel.setup nbrs).update.n_adopters = 0 := by
    rw [update_count]
    simp only [MarketModel.setup, List.countP_map]
    have hc : List.countP ((fun a => a.become_adopter) ∘ ConsumerAgent.setup)
        nbrs = List.countP (fun _ => false) nbrs :=
      countP_congr_fn nbrs (fun a _ => rfl)
    rw [hc]
    simp
  have hlog1 : (MarketModel.setup nbrs).update.log = [0] := by
    rw [update_log, hcnt0]
    simp [MarketModel.setup]
  refine ⟨?_, ?_, ?_⟩
  · unfold MarketModel.run
    rw [runAux_log_length, hlog1]
    simp
    omega
  · unfold MarketModel.run
    obtain ⟨l2, hl⟩ := runAux_log_grows steps ((MarketModel.setup nbrs).update, g)
    rw [hl, hlog1]
    rfl
  · intro a ha
    rcases List.mem_map.mp ha with ⟨x, _, hx⟩
    rw [← hx]
    exact ⟨rfl, rfl⟩

theorem c10_initial_record_witness :
    ((MarketModel.setup [[], []]).run 2 tapeZero).1.log.head? = some 0 ∧
      (ConsumerAgent.setup []).is_adopter = false :=
  ⟨(c10_initial_record [[], []] 2 tapeZero).2.1,
    ((c10_initial_record [[], []] 2 tapeZero).2.2 (ConsumerAgent.setup [])
      (by decide)).1⟩
